import Mathlib

/-!
Shallow embedding of `src/brainwavestonaturallanguage.js` (class
`AgnosticBrainDecoder`).  Numbers are modelled as rationals; JavaScript
objects keyed by strings (or numeric-string class indices) are modelled as
association lists whose lookup takes the first matching entry; a thrown
exception is modelled as `Option.none` (resp. `Except.error`); the external
libraries `brain.js` (classifier `run` functions) and `axios` (the dictionary
service response) are modelled as abstract parameters.
-/

namespace BrainDecode

/-- JavaScript object property lookup `m[k]` on an association list:
`some v` for the first entry with key `k`, `none` (i.e. `undefined`)
otherwise. -/
def lookupJS {α β : Type} [DecidableEq α] (m : List (α × β)) (k : α) : Option β :=
  (m.find? (fun p => decide (p.1 = k))).map Prod.snd

/-- A frequency band, one entry of the `frequencyBands` object:
name and `[lowFreq, highFreq]` pair (source line 17). -/
abbrev Band := String × ℚ × ℚ

/-- `centerFreq = (lowFreq + highFreq) / 2` (source line 21). -/
def centerFreq (b : Band) : ℚ := (b.2.1 + b.2.2) / 2

/-- `mathjs.mean`: arithmetic mean of a list; mathjs throws
("Cannot calculate the mean of an empty array") on an empty input,
modelled as `none`. -/
def meanQ (l : List ℚ) : Option ℚ :=
  if l = [] then none else some (l.sum / l.length)

/-- `mathjs.dotMultiply`: element-wise product of two arrays. -/
def dotMultiplyQ (a b : List ℚ) : List ℚ := List.zipWith (· * ·) a b

/-- `extractWeightedBandPower(data)` (source lines 15-26): for each configured
band, in object-entry order, compute `bandPower = mean(data .* data)` and push
`bandPower * centerFreq`.  A thrown error (mean of an empty array) aborts the
whole call, hence `none`. -/
def extractWeightedBandPower (bands : List Band) (data : List ℚ) : Option (List ℚ) :=
  match bands with
  | [] => some []
  | b :: rest =>
    match meanQ (dotMultiplyQ data data) with
    | none => none
    | some bandPower =>
      (extractWeightedBandPower rest data).map (fun fs => bandPower * centerFreq b :: fs)

/-- `preprocessData(rawData)` (source lines 28-35): concatenate
`extractWeightedBandPower` of every channel, in channel order. -/
def preprocessData (bands : List Band) (rawData : List (List ℚ)) : Option (List ℚ) :=
  match rawData with
  | [] => some []
  | channelData :: rest =>
    match extractWeightedBandPower bands channelData with
    | none => none
    | some channelFeatures =>
      (preprocessData bands rest).map (fun fs => channelFeatures ++ fs)

/-- `extractPhoneticFeatures(data)` (source lines 37-40):
`preprocessData(data.slice(0, Math.floor(data.length / 2)))`.  Note that
`data` is the list of channels, so the slice takes the first half of the
channels. -/
def extractPhoneticFeatures (bands : List Band) (data : List (List ℚ)) : Option (List ℚ) :=
  preprocessData bands (data.take (data.length / 2))

/-- `extractSemanticFeatures(data)` (source lines 42-45):
`preprocessData(data.slice(Math.floor(data.length / 2)))`. -/
def extractSemanticFeatures (bands : List Band) (data : List (List ℚ)) : Option (List ℚ) :=
  preprocessData bands (data.drop (data.length / 2))

/-- `[...new Set(y)]` (source line 51): the distinct elements of `y` in order
of first occurrence. -/
def uniqueWords : List String → List String
  | [] => []
  | w :: rest => w :: uniqueWords (rest.filter (fun x => decide (x ≠ w)))
termination_by l => l.length
decreasing_by
  simp only [List.length_cons]
  exact Nat.lt_succ_of_le (List.length_filter_le _ _)

/-- Helper for `uniqueWords.map((word, i) => [word, i])`: pair each word with
its position, starting at `i`. -/
def buildMappingAux (u : List String) (i : ℕ) : List (String × ℕ) :=
  match u with
  | [] => []
  | w :: rest => (w, i) :: buildMappingAux rest (i + 1)

/-- `this.wordMapping = Object.fromEntries(uniqueWords.map((word, i) => [word, i]))`
(source line 52). -/
def buildWordMapping (y : List String) : List (String × ℕ) :=
  buildMappingAux (uniqueWords y) 0

/-- `Object.fromEntries(Object.entries(this.wordMapping).map(([k, v]) => [v, k]))`
(source line 71). -/
def inverseMapping (m : List (String × ℕ)) : List (ℕ × String) :=
  m.map (fun p => (p.2, p.1))

/-- Decoder state (source lines 5-13).  The two `brain.js` neural networks are
modelled by their externally observable `run` functions, mapping a feature
vector to a score distribution keyed by class index. -/
structure Decoder where
  frequencyBands : List Band
  samplingRate : ℚ
  phoneticRun : List ℚ → List (ℕ × ℚ)
  semanticRun : List ℚ → List (ℕ × ℚ)
  wordMapping : List (String × ℕ)
  wordEmbeddings : List (String × List ℚ)

/-- The constructor (source lines 6-13): `wordMapping` and `wordEmbeddings`
start as empty objects `{}`; the untrained networks' `run` functions are
abstract. -/
def mkDecoder (bands : List Band) (rate : ℚ)
    (phoneticNet semanticNet : List ℚ → List (ℕ × ℚ)) : Decoder :=
  { frequencyBands := bands
    samplingRate := rate
    phoneticRun := phoneticNet
    semanticRun := semanticNet
    wordMapping := []
    wordEmbeddings := [] }

/-- `train(rawDataSamples, y)` (source lines 47-57): replaces `wordMapping`
with the mapping built from `y` and retrains the two classifiers.  The
iterative `brain.js` fitting is external; the resulting `run` functions are
taken as parameters.  No other decoder field is written. -/
def train (d : Decoder) (rawDataSamples : List (List (List ℚ))) (y : List String)
    (trainedPhonetic trainedSemantic : List ℚ → List (ℕ × ℚ)) : Decoder :=
  { d with
    wordMapping := buildWordMapping y
    phoneticRun := trainedPhonetic
    semanticRun := trainedSemantic }

/-- The fusion step (source lines 66-68):
`Object.fromEntries(Object.keys(phoneticPred).map(key => [key, (phoneticPred[key] + semanticPred[key]) / 2]))`.
When `key` is absent from `semanticPred`, `semanticPred[key]` is `undefined`
and the averaged value is `NaN`; a `NaN`/undefined score is modelled as
`none`. -/
def fusePredictions (phoneticPred semanticPred : List (ℕ × ℚ)) : List (ℕ × Option ℚ) :=
  phoneticPred.map (fun p => (p.1, (lookupJS semanticPred p.1).map (fun s => (p.2 + s) / 2)))

/-- JavaScript `>` on two possibly-`NaN`/undefined scores: `false` whenever
either operand is not an ordinary number. -/
def scoreGt (a b : Option ℚ) : Bool :=
  match a, b with
  | some x, some y => decide (y < x)
  | _, _ => false

/-- `Array.prototype.reduce` with no initial value: `none` (a thrown
`TypeError`) on an empty array, otherwise fold from the first element. -/
def jsReduce {α : Type} (f : α → α → α) : List α → Option α
  | [] => none
  | x :: xs => some (xs.foldl f x)

/-- One step of the arg-max reduction (source line 70):
`(a, b) => combinedPred[a] > combinedPred[b] ? a : b`, carried out on the
entries themselves since object keys are unique. -/
def maxStep (a b : ℕ × Option ℚ) : ℕ × Option ℚ :=
  if scoreGt a.2 b.2 then a else b

/-- `Object.keys(combinedPred).reduce((a, b) => combinedPred[a] > combinedPred[b] ? a : b)`
(source line 70). -/
def jsReduceMax (l : List (ℕ × Option ℚ)) : Option (ℕ × Option ℚ) :=
  jsReduce maxStep l

/-- `predict(rawData)` (source lines 59-73).  The outer `Option` is a thrown
error (empty feature channel, or reduce over an empty distribution); the
inner `Option String` is the possibly-`undefined` result of the inverse
mapping lookup. -/
def predict (d : Decoder) (rawData : List (List ℚ)) : Option (Option String) :=
  match extractPhoneticFeatures d.frequencyBands rawData,
        extractSemanticFeatures d.frequencyBands rawData with
  | some phoneticFeatures, some semanticFeatures =>
    match jsReduceMax (fusePredictions (d.phoneticRun phoneticFeatures)
                                       (d.semanticRun semanticFeatures)) with
    | none => none
    | some predicted => some (lookupJS (inverseMapping d.wordMapping) predicted.1)
  | _, _ => none

/-- `mathjs.dot`: dot product of two vectors, cast into the reals. -/
def dotQ (a b : List ℚ) : ℚ := (List.zipWith (· * ·) a b).sum

/-- `mathjs.norm`: Euclidean norm. -/
noncomputable def normQ (a : List ℚ) : ℝ := Real.sqrt ((dotQ a a : ℚ) : ℝ)

/-- `cosineSimilarity(a, b)` (source lines 117-119):
`mathjs.dot(a, b) / (mathjs.norm(a) * mathjs.norm(b))`. -/
noncomputable def cosineSimilarity (a b : List ℚ) : ℝ :=
  ((dotQ a b : ℚ) : ℝ) / (normQ a * normQ b)

/-- The fixed `universalConcepts` table (source lines 91-95). -/
def universalConcepts : List (String × List ℚ) :=
  [("entity", [1/10, 2/10, 3/10]),
   ("action", [4/10, 5/10, 6/10]),
   ("state", [7/10, 8/10, 9/10])]

open Classical in
/-- `Object.entries(universalConcepts).reduce((a, b) => cos(wv, a[1]) > cos(wv, b[1]) ? a : b)[0]`
(source lines 97-99); the table is non-empty, so the `none` branch of the
reduce is unreachable. -/
noncomputable def closestConcept (wordVector : List ℚ) : String :=
  match jsReduce (fun a b =>
      if cosineSimilarity wordVector a.2 > cosineSimilarity wordVector b.2 then a else b)
    universalConcepts with
  | some c => c.1
  | none => ""

/-- `findUniversalConcept(word)` (source lines 84-102).  The argument may be
the `undefined` result of `predict` (`none`), which is never a key of
`wordEmbeddings`. -/
noncomputable def findUniversalConcept (d : Decoder) (word : Option String) : String :=
  match word.bind (lookupJS d.wordEmbeddings) with
  | none => "Word not in vocabulary"
  | some wordVector => closestConcept wordVector

/-- One definition object of the dictionary service payload. -/
structure DictDefinition where
  definition : String

/-- One meaning object of the dictionary service payload. -/
structure DictMeaning where
  definitions : List DictDefinition

/-- One entry of the dictionary service payload (`response.data` is a list of
these). -/
structure DictEntry where
  meanings : List DictMeaning

/-- `response.data[0].meanings[0].definitions[0].definition` (source line 78):
any index falling off the end of a list makes the next property access throw,
hence `none`. -/
def extractFirstDefinition (entries : List DictEntry) : Option String :=
  (((entries[0]?).bind (fun e => e.meanings[0]?)).bind
    (fun m => m.definitions[0]?)).map (fun defn => defn.definition)

/-- `getNormalizedDefinition(word)` (source lines 75-82).  The `axios.get`
call is modelled by its outcome `svc`: `Except.error` for a network failure,
`Except.ok entries` for a 2xx payload.  Every throw inside the `try` block is
caught and converted to the placeholder. -/
def getNormalizedDefinition (svc : Except Unit (List DictEntry)) : String :=
  match svc with
  | Except.error _ => "Definition not found"
  | Except.ok entries =>
    match extractFirstDefinition entries with
    | none => "Definition not found"
    | some s => s

/-- The result record of `processAndPredict` (source lines 109-113). -/
structure PredictionResult where
  predictedWord : Option String
  definition : String
  universalConcept : String

/-- `processAndPredict(rawData)` (source lines 104-114): a throw inside
`predict` propagates (outer `none`); otherwise all three fields are
populated. -/
noncomputable def processAndPredict (d : Decoder) (svc : Except Unit (List DictEntry))
    (rawData : List (List ℚ)) : Option PredictionResult :=
  (predict d rawData).map (fun predictedWord =>
    { predictedWord := predictedWord
      definition := getNormalizedDefinition svc
      universalConcept := findUniversalConcept d predictedWord })

/-- The decoder states reachable through the public mutating surface: a
freshly constructed decoder, or any reachable decoder after a `train` call.
`predict`, `processAndPredict`, `findUniversalConcept` and
`getNormalizedDefinition` write no decoder field, so they induce no
transition. -/
inductive Reachable : Decoder → Prop
  | construct (bands : List Band) (rate : ℚ)
      (phoneticNet semanticNet : List ℚ → List (ℕ × ℚ)) :
      Reachable (mkDecoder bands rate phoneticNet semanticNet)
  | trained (d : Decoder) (raws : List (List (List ℚ))) (y : List String)
      (trainedPhonetic trainedSemantic : List ℚ → List (ℕ × ℚ)) :
      Reachable d → Reachable (train d raws y trainedPhonetic trainedSemantic)

/-! ## Measuring devices used by the statements (not part of the source) -/

/-- The per-class scores a classifier actually returns are ordinary numbers;
entering them into the arg-max reduction wraps each score in `some`. -/
def toScoreEntries (l : List (ℕ × ℚ)) : List (ℕ × Option ℚ) :=
  l.map (fun p => (p.1, some p.2))

/-- Index of the first occurrence of `w` in a list (list length when
absent). -/
def firstIdx : List String → String → ℕ
  | [], _ => 0
  | a :: rest, w => if w = a then 0 else firstIdx rest w + 1

/-- The element at position `k`, if any. -/
def nthOpt : List String → ℕ → Option String
  | [], _ => none
  | a :: _, 0 => some a
  | _ :: rest, k + 1 => nthOpt rest k

/-! ## Shared lemmas about the extraction layer -/

lemma dotMultiplyQ_length (data : List ℚ) : (dotMultiplyQ data data).length = data.length := by
  simp [dotMultiplyQ]

lemma dotMultiplyQ_ne_nil {data : List ℚ} (h : data ≠ []) : dotMultiplyQ data data ≠ [] := by
  simp [dotMultiplyQ, List.zipWith_eq_nil_iff]
  exact fun hc => absurd hc h

lemma extractWeightedBandPower_eq (bands : List Band) (data : List ℚ) (h : data ≠ []) :
    extractWeightedBandPower bands data =
      some (bands.map fun b =>
        ((dotMultiplyQ data data).sum / (data.length : ℚ)) * centerFreq b) := by
  induction bands with
  | nil => rfl
  | cons b rest ih =>
    simp only [extractWeightedBandPower, meanQ, if_neg (dotMultiplyQ_ne_nil h), ih,
      Option.map_some', List.map_cons, dotMultiplyQ_length]

lemma preprocessData_spec (bands : List Band) (raw : List (List ℚ))
    (h : ∀ c ∈ raw, c ≠ []) :
    ∃ fs, preprocessData bands raw = some fs ∧ fs.length = raw.length * bands.length := by
  induction raw with
  | nil => exact ⟨[], rfl, by simp⟩
  | cons c rest ih =>
    obtain ⟨fs, hfs, hlen⟩ := ih (fun x hx => h x (List.mem_cons_of_mem _ hx))
    have hc := extractWeightedBandPower_eq bands c (h c (List.mem_cons_self _ _))
    refine ⟨(bands.map fun b =>
      ((dotMultiplyQ c c).sum / (c.length : ℚ)) * centerFreq b) ++ fs, ?_, ?_⟩
    · simp only [preprocessData, hc, hfs, Option.map_some']
    · simp only [List.length_append, List.length_map, hlen, List.length_cons]
      ring

/-! ## Claims about the feature extraction (C1, C2, C6) -/

/-- Claim C2 (confirmed): for every non-empty channel sample sequence and every
ordered band configuration, `extractWeightedBandPower` returns one value per
band in band order, each equal to `mean(x*x)` times `(lowHz + highHz) / 2`. -/
theorem bandPower_values (bands : List Band) (data : List ℚ) (h : data ≠ []) :
    extractWeightedBandPower bands data =
      some (bands.map fun b =>
        ((dotMultiplyQ data data).sum / (data.length : ℚ)) * ((b.2.1 + b.2.2) / 2)) :=
  extractWeightedBandPower_eq bands data h

/-- Witness for C2, at the spec's end-to-end scenario: one band
`delta = [0.5, 4]` and the 4-sample signal `[1,1,1,1]` give `[2.25]`. -/
theorem bandPower_values_witness :
    (([1, 1, 1, 1] : List ℚ) ≠ []) ∧
    extractWeightedBandPower [("delta", (1/2 : ℚ), 4)] [1, 1, 1, 1] = some [9/4] := by
  refine ⟨by simp, ?_⟩
  rw [bandPower_values _ _ (by simp)]
  norm_num [dotMultiplyQ]

/-- Counterexample to C6 as stated: with an *empty* band configuration the
band loop never runs, so an empty channel returns `[]` without any failure. -/
theorem emptyChannel_noBands_counterexample :
    extractWeightedBandPower ([] : List Band) ([] : List ℚ) = some [] ∧
    some ([] : List ℚ) ≠ none := ⟨rfl, by simp⟩

/-- Claim C6 (amended: for every *non-empty* band configuration): the
band-power extraction on an empty channel fails (the mean of an empty array
throws), and in particular never returns a vector containing `NaN`. -/
theorem emptyChannel_fails (bands : List Band) (h : bands ≠ []) :
    extractWeightedBandPower bands ([] : List ℚ) = none := by
  cases bands with
  | nil => exact absurd rfl h
  | cons b rest => rfl

/-- Witness for C6: the single delta band on an empty channel fails. -/
theorem emptyChannel_fails_witness :
    extractWeightedBandPower [("delta", (1/2 : ℚ), 4)] ([] : List ℚ) = none :=
  emptyChannel_fails _ (by simp)

/-- Counterexample to C1 as stated: with 2 channels of 2 samples and 1 band,
the claim demands a phonetic feature vector of length `C × B = 2`, but the
code slices the *channel list*, keeping `floor(2/2) = 1` whole channel, so the
phonetic vector has length 1. -/
theorem pathwaySplit_counterexample :
    (extractPhoneticFeatures [("delta", (1/2 : ℚ), 4)] [[1, 1], [1, 1]]).map List.length
      = some 1 ∧ (1 : ℕ) ≠ 2 * 1 := by
  constructor
  · simp [extractPhoneticFeatures, preprocessData, extractWeightedBandPower, meanQ,
      dotMultiplyQ, centerFreq]
  · decide

/-- Claim C1 (amended): the phonetic pathway is computed from the first
`floor(C/2)` *channels* of the raw sample (each with its complete sample
sequence) and the semantic pathway from the remaining channels; for an input
with `C` channels (each non-empty) and `B` configured bands the phonetic
feature vector has length `floor(C/2) × B` and the semantic one
`(C - floor(C/2)) × B`. -/
theorem pathwaySplit_lengths (bands : List Band) (raw : List (List ℚ))
    (h : ∀ c ∈ raw, c ≠ []) :
    extractPhoneticFeatures bands raw = preprocessData bands (raw.take (raw.length / 2)) ∧
    extractSemanticFeatures bands raw = preprocessData bands (raw.drop (raw.length / 2)) ∧
    (∃ p, extractPhoneticFeatures bands raw = some p ∧
      p.length = (raw.length / 2) * bands.length) ∧
    (∃ s, extractSemanticFeatures bands raw = some s ∧
      s.length = (raw.length - raw.length / 2) * bands.length) := by
  refine ⟨rfl, rfl, ?_, ?_⟩
  · obtain ⟨p, hp, hl⟩ := preprocessData_spec bands (raw.take (raw.length / 2))
      (fun c hc => h c (List.mem_of_mem_take hc))
    exact ⟨p, hp, by
      rw [hl, List.length_take, Nat.min_eq_left (Nat.div_le_self _ _)]⟩
  · obtain ⟨s, hs, hl⟩ := preprocessData_spec bands (raw.drop (raw.length / 2))
      (fun c hc => h c (List.mem_of_mem_drop hc))
    exact ⟨s, hs, by rw [hl, List.length_drop]⟩

/-- Witness for C1: two non-empty channels and one band give a phonetic
feature vector of length `floor(2/2) * 1 = 1` and a semantic one of length
`(2 - 1) * 1 = 1`. -/
theorem pathwaySplit_lengths_witness :
    (∀ c ∈ [[(1 : ℚ), 1], [1, 1]], c ≠ []) ∧
    (∃ p, extractPhoneticFeatures [("delta", (1/2 : ℚ), 4)] [[1, 1], [1, 1]] = some p ∧
      p.length = 1) ∧
    (∃ s, extractSemanticFeatures [("delta", (1/2 : ℚ), 4)] [[1, 1], [1, 1]] = some s ∧
      s.length = 1) := by
  have H := pathwaySplit_lengths [("delta", (1/2 : ℚ), 4)] [[1, 1], [1, 1]] (by simp)
  exact ⟨by simp, by simpa using H.2.2.1, by simpa using H.2.2.2⟩

/-! ## Claims about the fusion step (C3, C10) -/

/-- Counterexample to C3 as stated: with phonetic scores `{0: 1}` and semantic
scores `{1: 2}` the key intersection is empty, yet key `0` appears in the
fused distribution (with the `NaN` value of an undefined average). -/
theorem fusionIntersection_counterexample :
    ((0 : ℕ), (none : Option ℚ)) ∈ fusePredictions [(0, (1 : ℚ))] [(1, (2 : ℚ))] ∧
    (0 : ℕ) ∉ ([((1 : ℕ), (2 : ℚ))].map Prod.fst) := by
  constructor
  · simp [fusePredictions, lookupJS]
  · simp

/-- Claim C3 (amended): the fused distribution's key set is exactly the
*phonetic* distribution's key set (not the intersection); every key present
in both distributions is assigned the arithmetic mean of the two scores, and
every fused key comes from the phonetic distribution, so a key present only
in the semantic distribution does not appear. -/
theorem fusionMean_phoneticKeys (ph sem : List (ℕ × ℚ)) :
    ((fusePredictions ph sem).map Prod.fst = ph.map Prod.fst) ∧
    (∀ k p s, (k, p) ∈ ph → lookupJS sem k = some s →
      (k, some ((p + s) / 2)) ∈ fusePredictions ph sem) ∧
    (∀ k v, (k, v) ∈ fusePredictions ph sem → k ∈ ph.map Prod.fst) := by
  refine ⟨?_, ?_, ?_⟩
  · simp [fusePredictions, List.map_map, Function.comp]
  · intro k p s hk hs
    have hm := List.mem_map_of_mem
      (fun p : ℕ × ℚ => (p.1, (lookupJS sem p.1).map (fun s => (p.2 + s) / 2))) hk
    simpa [fusePredictions, hs] using hm
  · intro k v hkv
    simp only [fusePredictions, List.mem_map] at hkv
    obtain ⟨q, hq, hqe⟩ := hkv
    have hk : q.1 = k := by simpa using congrArg Prod.fst hqe
    exact hk ▸ List.mem_map_of_mem Prod.fst hq

/-- Witness for C3 (amended): key `0` is in both distributions with scores 1
and 2, and the fused distribution holds their mean `3/2` at key `0`. -/
theorem fusionMean_phoneticKeys_witness :
    ((0 : ℕ), some ((3 : ℚ)/2)) ∈ fusePredictions [(0, (1 : ℚ))] [(0, (2 : ℚ))] := by
  have H := (fusionMean_phoneticKeys [(0, (1 : ℚ))] [(0, (2 : ℚ))]).2.1 0 1 2
    (by simp) (by simp [lookupJS])
  norm_num at H
  exact H

/-- Claim C10 (confirmed): the fused key set equals the phonetic key set; a
phonetic key missing from the semantic distribution is kept with the
undefined (`NaN`) average; a key outside the phonetic key set never appears
in the fused distribution; and the fused distribution — hence the prediction
computed from it — only depends on the semantic scores at phonetic keys. -/
theorem fusion_semanticOnlyKeys_dropped (ph sem : List (ℕ × ℚ)) :
    ((fusePredictions ph sem).map Prod.fst = ph.map Prod.fst) ∧
    (∀ k p, (k, p) ∈ ph → lookupJS sem k = none →
      (k, (none : Option ℚ)) ∈ fusePredictions ph sem) ∧
    (∀ k, k ∉ ph.map Prod.fst → ∀ v, (k, v) ∉ fusePredictions ph sem) ∧
    (∀ sem', (∀ k, k ∈ ph.map Prod.fst → lookupJS sem' k = lookupJS sem k) →
      fusePredictions ph sem' = fusePredictions ph sem) := by
  refine ⟨?_, ?_, ?_, ?_⟩
  · simp [fusePredictions, List.map_map, Function.comp]
  · intro k p hk hs
    have hm := List.mem_map_of_mem
      (fun p : ℕ × ℚ => (p.1, (lookupJS sem p.1).map (fun s => (p.2 + s) / 2))) hk
    simpa [fusePredictions, hs] using hm
  · intro k hk v hkv
    simp only [fusePredictions, List.mem_map] at hkv
    obtain ⟨q, hq, hqe⟩ := hkv
    have hqk : q.1 = k := by simpa using congrArg Prod.fst hqe
    exact hk (hqk ▸ List.mem_map_of_mem Prod.fst hq)
  · intro sem' hsem
    apply List.map_congr_left
    intro q hq
    rw [hsem q.1 (List.mem_map_of_mem Prod.fst hq)]

/-- Witness for C10: the semantic-only key `5` does not appear in the fused
distribution. -/
theorem fusion_semanticOnlyKeys_dropped_witness :
    ((5 : ℕ), some ((3 : ℚ)/2)) ∉ fusePredictions [(0, (1 : ℚ))] [(5, (2 : ℚ))] :=
  (fusion_semanticOnlyKeys_dropped [(0, (1 : ℚ))] [(5, (2 : ℚ))]).2.2.1 5
    (by simp) (some ((3 : ℚ)/2))

/-! ## Claims about the arg-max reduction (C5) -/

lemma maxStep_some_some (a b : ℕ × ℚ) :
    maxStep (a.1, some a.2) (b.1, some b.2) =
      if b.2 < a.2 then (a.1, some a.2) else (b.1, some b.2) := by
  by_cases h : b.2 < a.2 <;> simp [maxStep, scoreGt, h]

lemma maxStep_foldl_last (xs : List (ℕ × ℚ)) :
    ∀ x : ℕ × ℚ, ∃ (r : ℕ × ℚ) (pre post : List (ℕ × ℚ)),
      (toScoreEntries xs).foldl maxStep (x.1, some x.2) = (r.1, some r.2) ∧
      x :: xs = pre ++ r :: post ∧
      (∀ q ∈ pre, q.2 ≤ r.2) ∧ (∀ q ∈ post, q.2 < r.2) := by
  induction xs with
  | nil =>
    intro x
    exact ⟨x, [], [], rfl, rfl, by simp, by simp⟩
  | cons b xs ih =>
    intro x
    have hfold : (toScoreEntries (b :: xs)).foldl maxStep (x.1, some x.2) =
        (toScoreEntries xs).foldl maxStep (maxStep (x.1, some x.2) (b.1, some b.2)) := rfl
    by_cases hx : b.2 < x.2
    · obtain ⟨r, pre, post, hf, hsplit, hpre, hpost⟩ := ih x
      rw [hfold, maxStep_some_some, if_pos hx]
      cases pre with
      | nil =>
        simp only [List.nil_append] at hsplit
        obtain ⟨hxr, hxs⟩ := List.cons.injEq .. ▸ hsplit
        refine ⟨r, [], b :: post, hf, ?_, by simp, ?_⟩
        · rw [List.nil_append, ← hxr, ← hxs]
        · intro q hq
          rcases List.mem_cons.mp hq with rfl | hq'
          · exact hxr ▸ hx
          · exact hpost q hq'
      | cons p pre' =>
        have hpx : p = x ∧ xs = pre' ++ r :: post := by
          have := hsplit
          simp only [List.cons_append] at this
          exact ⟨(List.cons.injEq .. ▸ this).1.symm, (List.cons.injEq .. ▸ this).2⟩
        refine ⟨r, x :: b :: pre', post, hf, ?_, ?_, hpost⟩
        · simp [hpx.2]
        · intro q hq
          have hxr : x.2 ≤ r.2 := hpre x (hpx.1 ▸ List.mem_cons_self p pre')
          rcases List.mem_cons.mp hq with rfl | hq'
          · exact hxr
          · rcases List.mem_cons.mp hq' with rfl | hq''
            · exact le_of_lt (lt_of_lt_of_le hx hxr)
            · exact hpre q (List.mem_cons_of_mem p hq'')
    · obtain ⟨r, pre, post, hf, hsplit, hpre, hpost⟩ := ih b
      rw [hfold, maxStep_some_some, if_neg hx]
      have hbr : b.2 ≤ r.2 := by
        cases pre with
        | nil =>
          simp only [List.nil_append] at hsplit
          exact le_of_eq (congrArg Prod.snd (List.cons.injEq .. ▸ hsplit).1)
        | cons p pre' =>
          have : p = b := by
            have := hsplit
            simp only [List.cons_append] at this
            exact (List.cons.injEq .. ▸ this).1.symm
          exact hpre b (this ▸ List.mem_cons_self p pre')
      refine ⟨r, x :: pre, post, hf, ?_, ?_, hpost⟩
      · simp [hsplit]
      · intro q hq
        rcases List.mem_cons.mp hq with rfl | hq'
        · exact le_trans (le_of_not_lt hx) hbr
        · exact hpre q hq'

/-- Counterexample to C5 as stated: on the tied distribution `{0: 1, 1: 1}`
the reduction returns key `1`, the *last*-seen tied key, not the first-seen
key `0`. -/
theorem argmax_firstSeen_counterexample :
    jsReduceMax (toScoreEntries [((0 : ℕ), (1 : ℚ)), (1, 1)]) = some (1, some 1) ∧
    (1 : ℕ) ≠ 0 := by
  constructor
  · simp [jsReduceMax, jsReduce, toScoreEntries, maxStep, scoreGt]
  · decide

/-- Claim C5 (amended): on an empty distribution the reduction fails (reduce
of an empty array with no initial value throws); on a non-empty distribution
it returns an entry holding the greatest score, with ties broken in favour of
the *last*-seen key among those attaining the greatest score: every earlier
entry scores no higher, and every later entry scores strictly lower. -/
theorem argmax_greatest_lastTie (l : List (ℕ × ℚ)) :
    (l = [] → jsReduceMax (toScoreEntries l) = none) ∧
    (l ≠ [] → ∃ (r : ℕ × ℚ) (pre post : List (ℕ × ℚ)),
      jsReduceMax (toScoreEntries l) = some (r.1, some r.2) ∧
      l = pre ++ r :: post ∧
      (∀ q ∈ pre, q.2 ≤ r.2) ∧ (∀ q ∈ post, q.2 < r.2)) := by
  constructor
  · rintro rfl; rfl
  · intro h
    cases l with
    | nil => exact absurd rfl h
    | cons x xs =>
      obtain ⟨r, pre, post, hf, hsplit, hpre, hpost⟩ := maxStep_foldl_last xs x
      refine ⟨r, pre, post, ?_, hsplit, hpre, hpost⟩
      simp only [toScoreEntries, List.map_cons] at hf ⊢
      simp only [jsReduceMax, jsReduce, hf]

/-- Witness for C5: instantiating the amended claim on the tied distribution
`{0: 1, 1: 1}`. -/
theorem argmax_greatest_lastTie_witness :
    (([((0 : ℕ), (1 : ℚ)), (1, 1)] : List (ℕ × ℚ)) ≠ []) ∧
    (∃ (r : ℕ × ℚ) (pre post : List (ℕ × ℚ)),
      jsReduceMax (toScoreEntries [((0 : ℕ), (1 : ℚ)), (1, 1)]) = some (r.1, some r.2) ∧
      [((0 : ℕ), (1 : ℚ)), (1, 1)] = pre ++ r :: post ∧
      (∀ q ∈ pre, q.2 ≤ r.2) ∧ (∀ q ∈ post, q.2 < r.2)) :=
  ⟨by simp, (argmax_greatest_lastTie [((0 : ℕ), (1 : ℚ)), (1, 1)]).2 (by simp)⟩

/-! ## Claims about grounding and the definition lookup (C7, C8, C9) -/

/-- Counterexample to C7 as stated: for a word absent from the embedding
table the code returns the string `"Word not in vocabulary"` with a capital
`W`, which differs from the claimed sentinel `"word not in vocabulary"`. -/
theorem vocabSentinel_spelling_counterexample :
    findUniversalConcept (mkDecoder [] 0 (fun _ => []) (fun _ => [])) (some "hello")
      = "Word not in vocabulary" ∧
    "Word not in vocabulary" ≠ "word not in vocabulary" := ⟨rfl, by decide⟩

/-- Claim C7 (amended: the sentinel is spelled `"Word not in vocabulary"`):
for every word with no entry in the word-embedding table,
`findUniversalConcept` returns exactly the sentinel and, being a total
function of the state, never raises. -/
theorem ground_missingWord_sentinel (d : Decoder) (w : String)
    (h : lookupJS d.wordEmbeddings w = none) :
    findUniversalConcept d (some w) = "Word not in vocabulary" := by
  simp [findUniversalConcept, h]

/-- Witness for C7: a decoder with an empty embedding table on the word
`"think"`. -/
theorem ground_missingWord_sentinel_witness :
    findUniversalConcept (mkDecoder [] 0 (fun _ => []) (fun _ => [])) (some "think")
      = "Word not in vocabulary" :=
  ground_missingWord_sentinel (mkDecoder [] 0 (fun _ => []) (fun _ => [])) "think" rfl

/-- Claim C8 (confirmed): whenever the definition lookup fails in any way —
a network error, or a 2xx payload whose first definition cannot be extracted
(empty result set / missing fields) — the failure is caught at that boundary,
`getNormalizedDefinition` returns `"Definition not found"`, and the
`processAndPredict` result still carries the normally computed
`predictedWord` and `universalConcept`. -/
theorem lookupFailure_recovered (d : Decoder) (svc : Except Unit (List DictEntry))
    (raw : List (List ℚ))
    (h : svc = Except.error () ∨
      ∃ entries, svc = Except.ok entries ∧ extractFirstDefinition entries = none) :
    getNormalizedDefinition svc = "Definition not found" ∧
    (∀ pw, predict d raw = some pw →
      processAndPredict d svc raw =
        some { predictedWord := pw
               definition := "Definition not found"
               universalConcept := findUniversalConcept d pw }) := by
  have hdef : getNormalizedDefinition svc = "Definition not found" := by
    rcases h with rfl | ⟨entries, rfl, hext⟩
    · rfl
    · simp [getNormalizedDefinition, hext]
  refine ⟨hdef, fun pw hpw => ?_⟩
  simp [processAndPredict, hpw, hdef]

/-- Witness for C8: a concrete decoder whose prediction pipeline succeeds
while the dictionary service throws a network error; the result record keeps
its word and concept fields and carries the placeholder definition. -/
theorem lookupFailure_recovered_witness :
    processAndPredict
      (mkDecoder [("delta", (1/2 : ℚ), 4)] 1000 (fun _ => [(0, 1)]) (fun _ => [(0, 1)]))
      (Except.error ()) [[1, 1], [1, 1]] =
      some { predictedWord := none
             definition := "Definition not found"
             universalConcept := "Word not in vocabulary" } := by
  have H := (lookupFailure_recovered
      (mkDecoder [("delta", (1/2 : ℚ), 4)] 1000 (fun _ => [(0, 1)]) (fun _ => [(0, 1)]))
      (Except.error ()) [[1, 1], [1, 1]] (Or.inl rfl)).2 none
    (by simp [predict, mkDecoder, extractPhoneticFeatures, extractSemanticFeatures,
      preprocessData, extractWeightedBandPower, meanQ, dotMultiplyQ, centerFreq,
      fusePredictions, jsReduceMax, jsReduce, maxStep, scoreGt, lookupJS, inverseMapping])
  exact H

/-- Claim C9 (confirmed): the word-embedding table is empty at construction
and stays empty under every state-mutating operation (only `train` writes any
decoder field, and it does not touch `wordEmbeddings`); hence on every
reachable decoder `findUniversalConcept` returns the not-in-vocabulary
sentinel for every word, and every `processAndPredict` result carries that
sentinel as its `universalConcept`. -/
theorem wordEmbeddings_always_empty (d : Decoder) (h : Reachable d) :
    d.wordEmbeddings = [] ∧
    (∀ w : Option String, findUniversalConcept d w = "Word not in vocabulary") ∧
    (∀ (svc : Except Unit (List DictEntry)) (raw : List (List ℚ)) (r : PredictionResult),
      processAndPredict d svc raw = some r →
      r.universalConcept = "Word not in vocabulary") := by
  have hemb : d.wordEmbeddings = [] := by
    induction h with
    | construct bands rate phoneticNet semanticNet => rfl
    | trained d raws y trainedPhonetic trainedSemantic hd ih => simpa [train] using ih
  have hfind : ∀ w : Option String, findUniversalConcept d w = "Word not in vocabulary" := by
    intro w
    cases w with
    | none => rfl
    | some w => simp [findUniversalConcept, lookupJS, hemb]
  refine ⟨hemb, hfind, fun svc raw r hr => ?_⟩
  obtain ⟨pw, hpw, hfr⟩ := Option.map_eq_some'.mp hr
  rw [← hfr]
  exact hfind pw

/-- Witness for C9: a decoder constructed and then trained still grounds
every word to the sentinel. -/
theorem wordEmbeddings_always_empty_witness :
    findUniversalConcept
      (train (mkDecoder [("delta", (1/2 : ℚ), 4)] 1000 (fun _ => [(0, 1)]) (fun _ => [(0, 1)]))
        [] ["focus", "relax"] (fun _ => [(0, 1)]) (fun _ => [(0, 1)]))
      (some "focus") = "Word not in vocabulary" :=
  (wordEmbeddings_always_empty _
    (Reachable.trained _ [] ["focus", "relax"] (fun _ => [(0, 1)]) (fun _ => [(0, 1)])
      (Reachable.construct [("delta", (1/2 : ℚ), 4)] 1000
        (fun _ => [(0, 1)]) (fun _ => [(0, 1)])))).2.1 (some "focus")

/-! ## Shared lemmas for the label mapping (C4) -/

lemma lookupJS_cons {α β : Type} [DecidableEq α] (a : α) (b : β) (t : List (α × β)) (k : α) :
    lookupJS ((a, b) :: t) k = if a = k then some b else lookupJS t k := by
  by_cases h : a = k
  · simp [lookupJS, List.find?_cons, h]
  · simp [lookupJS, List.find?_cons, h]

lemma firstIdx_cons (a : String) (l : List String) (w : String) :
    firstIdx (a :: l) w = if w = a then 0 else firstIdx l w + 1 := rfl

lemma mem_uniqueWords : ∀ (l : List String) (w : String), w ∈ uniqueWords l ↔ w ∈ l
  | [], w => by simp [uniqueWords]
  | a :: rest, w => by
    have ih := mem_uniqueWords (rest.filter (fun x => decide (x ≠ a))) w
    simp only [uniqueWords, List.mem_cons, ih, List.mem_filter, decide_eq_true_eq]
    by_cases h : w = a
    · simp [h]
    · simp [h]
termination_by l _ => l.length
decreasing_by
  simp only [List.length_cons]
  exact Nat.lt_succ_of_le (List.length_filter_le _ _)

lemma nodup_uniqueWords : ∀ (l : List String), (uniqueWords l).Nodup
  | [] => by simp [uniqueWords]
  | a :: rest => by
    have ih := nodup_uniqueWords (rest.filter (fun x => decide (x ≠ a)))
    simp only [uniqueWords, List.nodup_cons]
    refine ⟨?_, ih⟩
    rw [mem_uniqueWords]
    simp
termination_by l => l.length
decreasing_by
  simp only [List.length_cons]
  exact Nat.lt_succ_of_le (List.length_filter_le _ _)

lemma firstIdx_filter_lt (p : String → Bool) (w1 w2 : String) :
    ∀ (l : List String), w1 ∈ l → w2 ∈ l → p w1 = true → p w2 = true →
      (firstIdx (l.filter p) w1 < firstIdx (l.filter p) w2 ↔
        firstIdx l w1 < firstIdx l w2) := by
  intro l
  induction l with
  | nil => intro h1; cases h1
  | cons a rest ih =>
    intro h1 h2 hp1 hp2
    by_cases e1 : w1 = a
    · have pa : p a = true := e1 ▸ hp1
      rw [List.filter_cons_of_pos pa]
      by_cases e2 : w2 = a
      · simp [firstIdx_cons, e1, e2]
      · simp [firstIdx_cons, e1, e2]
    · by_cases e2 : w2 = a
      · have pa : p a = true := e2 ▸ hp2
        rw [List.filter_cons_of_pos pa]
        simp [firstIdx_cons, e1, e2]
      · have hm1 : w1 ∈ rest := (List.mem_cons.mp h1).resolve_left e1
        have hm2 : w2 ∈ rest := (List.mem_cons.mp h2).resolve_left e2
        cases pa : p a with
        | true =>
          rw [List.filter_cons_of_pos pa]
          simp only [firstIdx_cons, if_neg e1, if_neg e2, Nat.add_lt_add_iff_right]
          exact ih hm1 hm2 hp1 hp2
        | false =>
          rw [List.filter_cons_of_neg (by simp [pa])]
          simp only [firstIdx_cons, if_neg e1, if_neg e2, Nat.add_lt_add_iff_right]
          exact ih hm1 hm2 hp1 hp2

lemma firstIdx_uniqueWords_lt : ∀ (l : List String) (w1 w2 : String), w1 ∈ l → w2 ∈ l →
    (firstIdx (uniqueWords l) w1 < firstIdx (uniqueWords l) w2 ↔
      firstIdx l w1 < firstIdx l w2)
  | [], w1, w2 => by intro h1; cases h1
  | a :: rest, w1, w2 => by
    intro h1 h2
    have hu : uniqueWords (a :: rest) =
        a :: uniqueWords (rest.filter (fun x => decide (x ≠ a))) := by
      simp only [uniqueWords]
    by_cases e1 : w1 = a
    · by_cases e2 : w2 = a
      · simp [hu, firstIdx_cons, e1, e2]
      · simp [hu, firstIdx_cons, e1, e2]
    · by_cases e2 : w2 = a
      · simp [hu, firstIdx_cons, e1, e2]
      · have hm1 : w1 ∈ rest := (List.mem_cons.mp h1).resolve_left e1
        have hm2 : w2 ∈ rest := (List.mem_cons.mp h2).resolve_left e2
        have hf1 : w1 ∈ rest.filter (fun x => decide (x ≠ a)) := by
          simp [List.mem_filter, hm1, e1]
        have hf2 : w2 ∈ rest.filter (fun x => decide (x ≠ a)) := by
          simp [List.mem_filter, hm2, e2]
        have ih := firstIdx_uniqueWords_lt (rest.filter (fun x => decide (x ≠ a)))
          w1 w2 hf1 hf2
        have hF := firstIdx_filter_lt (fun x => decide (x ≠ a)) w1 w2 rest hm1 hm2
          (by simp [e1]) (by simp [e2])
        simp only [hu, firstIdx_cons, if_neg e1, if_neg e2, Nat.add_lt_add_iff_right]
        rw [ih, hF]
termination_by l _ _ => l.length
decreasing_by
  simp only [List.length_cons]
  exact Nat.lt_succ_of_le (List.length_filter_le _ _)

lemma lookup_buildMappingAux : ∀ (u : List String) (w : String), w ∈ u → ∀ i,
    lookupJS (buildMappingAux u i) w = some (i + firstIdx u w) := by
  intro u
  induction u with
  | nil => intro w h; cases h
  | cons a rest ih =>
    intro w h i
    rw [show buildMappingAux (a :: rest) i = (a, i) :: buildMappingAux rest (i + 1) from rfl,
      lookupJS_cons]
    by_cases e : a = w
    · subst e
      simp [firstIdx_cons]
    · have hm : w ∈ rest := (List.mem_cons.mp h).resolve_left (fun hh => e hh.symm)
      rw [if_neg e, ih w hm (i + 1), firstIdx_cons, if_neg (fun hh => e hh.symm)]
      congr 1
      omega

lemma lookup_buildMappingAux_mem : ∀ (u : List String) (w : String) (i j : ℕ),
    lookupJS (buildMappingAux u i) w = some j → w ∈ u := by
  intro u
  induction u with
  | nil => intro w i j h; simp [buildMappingAux, lookupJS] at h
  | cons a rest ih =>
    intro w i j h
    rw [show buildMappingAux (a :: rest) i = (a, i) :: buildMappingAux rest (i + 1) from rfl,
      lookupJS_cons] at h
    by_cases e : a = w
    · exact e ▸ List.mem_cons_self a rest
    · exact List.mem_cons_of_mem a (ih w (i + 1) j (by rwa [if_neg e] at h))

lemma lookup_inverse_buildMappingAux : ∀ (u : List String) (i k : ℕ),
    lookupJS (inverseMapping (buildMappingAux u i)) (i + k) = nthOpt u k := by
  intro u
  induction u with
  | nil => intro i k; rfl
  | cons a rest ih =>
    intro i k
    rw [show inverseMapping (buildMappingAux (a :: rest) i) =
      (i, a) :: inverseMapping (buildMappingAux rest (i + 1)) from rfl, lookupJS_cons]
    cases k with
    | zero => simp [nthOpt]
    | succ k' =>
      rw [if_neg (by omega), show i + (k' + 1) = (i + 1) + k' from by omega, ih (i + 1) k']
      rfl

lemma nthOpt_firstIdx : ∀ (u : List String) (w : String), w ∈ u →
    nthOpt u (firstIdx u w) = some w := by
  intro u
  induction u with
  | nil => intro w h; cases h
  | cons a rest ih =>
    intro w h
    by_cases e : w = a
    · simp [firstIdx_cons, e, nthOpt]
    · have hm : w ∈ rest := (List.mem_cons.mp h).resolve_left e
      rw [firstIdx_cons, if_neg e]
      exact ih w hm

lemma firstIdx_lt_length : ∀ (u : List String) (w : String), w ∈ u →
    firstIdx u w < u.length := by
  intro u
  induction u with
  | nil => intro w h; cases h
  | cons a rest ih =>
    intro w h
    by_cases e : w = a
    · simp [firstIdx_cons, e]
    · have hm : w ∈ rest := (List.mem_cons.mp h).resolve_left e
      rw [firstIdx_cons, if_neg e, List.length_cons]
      exact Nat.succ_lt_succ (ih w hm)

lemma nthOpt_mem : ∀ (u : List String) (k : ℕ) (w : String), nthOpt u k = some w → w ∈ u := by
  intro u
  induction u with
  | nil => intro k w h; simp [nthOpt] at h
  | cons a rest ih =>
    intro k w h
    cases k with
    | zero => exact List.mem_cons.mpr (Or.inl (Option.some.inj h).symm)
    | succ k' => exact List.mem_cons_of_mem a (ih k' w h)

lemma nthOpt_total : ∀ (u : List String) (k : ℕ), k < u.length →
    ∃ w, nthOpt u k = some w := by
  intro u
  induction u with
  | nil => intro k h; simp at h
  | cons a rest ih =>
    intro k h
    cases k with
    | zero => exact ⟨a, rfl⟩
    | succ k' => exact ih k' (Nat.lt_of_succ_lt_succ (by simpa using h))

lemma firstIdx_nthOpt : ∀ (u : List String), u.Nodup → ∀ (k : ℕ) (w : String),
    nthOpt u k = some w → firstIdx u w = k := by
  intro u
  induction u with
  | nil => intro _ k w h; simp [nthOpt] at h
  | cons a rest ih =>
    intro hnd k w h
    obtain ⟨ha, hrest⟩ := List.nodup_cons.mp hnd
    cases k with
    | zero =>
      have hw : a = w := Option.some.inj h
      simp [firstIdx_cons, hw.symm]
    | succ k' =>
      have hw : w ∈ rest := nthOpt_mem rest k' w h
      have hne : w ≠ a := fun hh => ha (hh ▸ hw)
      rw [firstIdx_cons, if_neg hne, ih hrest k' w h]

/-! ## Claim about the label mapping (C4) -/

/-- Claim C4 (confirmed): for every ordered training-label sequence, the
mapping built by `train` is a bijection between the distinct words and the
dense index range `[0, distinctCount)`: every word of the sequence encodes to
an in-range index that decodes back to the word, every in-range index decodes
to a word that encodes back to it, encoding is injective, the mapping's
domain is exactly the words of the sequence, and indices are assigned in
order of each word's first occurrence. -/
theorem labelMapping_bijection (y : List String) :
    (∀ w, w ∈ y → ∃ i, lookupJS (buildWordMapping y) w = some i ∧
      i < (uniqueWords y).length ∧
      lookupJS (inverseMapping (buildWordMapping y)) i = some w) ∧
    (∀ i, i < (uniqueWords y).length → ∃ w,
      lookupJS (inverseMapping (buildWordMapping y)) i = some w ∧
      lookupJS (buildWordMapping y) w = some i) ∧
    (∀ w1 w2 i, lookupJS (buildWordMapping y) w1 = some i →
      lookupJS (buildWordMapping y) w2 = some i → w1 = w2) ∧
    (∀ w i, lookupJS (buildWordMapping y) w = some i → w ∈ y) ∧
    (∀ w1 w2 i1 i2, lookupJS (buildWordMapping y) w1 = some i1 →
      lookupJS (buildWordMapping y) w2 = some i2 →
      (i1 < i2 ↔ firstIdx y w1 < firstIdx y w2)) := by
  have hA : ∀ w, w ∈ uniqueWords y →
      lookupJS (buildWordMapping y) w = some (firstIdx (uniqueWords y) w) := by
    intro w hw
    have := lookup_buildMappingAux (uniqueWords y) w hw 0
    simpa [buildWordMapping] using this
  have hB : ∀ k, lookupJS (inverseMapping (buildWordMapping y)) k = nthOpt (uniqueWords y) k := by
    intro k
    have := lookup_inverse_buildMappingAux (uniqueWords y) 0 k
    simpa [buildWordMapping] using this
  have hEnc : ∀ w i, lookupJS (buildWordMapping y) w = some i →
      w ∈ uniqueWords y ∧ i = firstIdx (uniqueWords y) w := by
    intro w i h
    have hw : w ∈ uniqueWords y := lookup_buildMappingAux_mem (uniqueWords y) w 0 i
      (by simpa [buildWordMapping] using h)
    have := (hA w hw).symm.trans h
    exact ⟨hw, (Option.some.inj this).symm⟩
  refine ⟨?_, ?_, ?_, ?_, ?_⟩
  · intro w hw
    have hu : w ∈ uniqueWords y := (mem_uniqueWords y w).mpr hw
    exact ⟨firstIdx (uniqueWords y) w, hA w hu, firstIdx_lt_length _ w hu,
      (hB _).trans (nthOpt_firstIdx _ w hu)⟩
  · intro i hi
    obtain ⟨w, hw⟩ := nthOpt_total (uniqueWords y) i hi
    have hu : w ∈ uniqueWords y := nthOpt_mem _ i w hw
    refine ⟨w, (hB i).trans hw, ?_⟩
    rw [hA w hu, firstIdx_nthOpt (uniqueWords y) (nodup_uniqueWords y) i w hw]
  · intro w1 w2 i h1 h2
    obtain ⟨hu1, hi1⟩ := hEnc w1 i h1
    obtain ⟨hu2, hi2⟩ := hEnc w2 i h2
    have e1 := nthOpt_firstIdx _ w1 hu1
    have e2 := nthOpt_firstIdx _ w2 hu2
    rw [← hi1] at e1
    rw [← hi2] at e2
    exact Option.some.inj (e1.symm.trans e2)
  · intro w i h
    exact (mem_uniqueWords y w).mp (hEnc w i h).1
  · intro w1 w2 i1 i2 h1 h2
    obtain ⟨hu1, hi1⟩ := hEnc w1 i1 h1
    obtain ⟨hu2, hi2⟩ := hEnc w2 i2 h2
    rw [hi1, hi2]
    exact firstIdx_uniqueWords_lt y w1 w2 ((mem_uniqueWords y w1).mp hu1)
      ((mem_uniqueWords y w2).mp hu2)

/-- Witness for C4, at the spec's end-to-end scenario: training labels
`["a","b","a"]` give the mapping `{a: 0, b: 1}` with `decode(0) = "a"` and
`decode(1) = "b"`. -/
theorem labelMapping_bijection_witness :
    buildWordMapping ["a", "b", "a"] = [("a", 0), ("b", 1)] ∧
    lookupJS (inverseMapping (buildWordMapping ["a", "b", "a"])) 0 = some "a" ∧
    lookupJS (inverseMapping (buildWordMapping ["a", "b", "a"])) 1 = some "b" ∧
    (∃ i, lookupJS (buildWordMapping ["a", "b", "a"]) "a" = some i ∧
      i < (uniqueWords ["a", "b", "a"]).length ∧
      lookupJS (inverseMapping (buildWordMapping ["a", "b", "a"])) i = some "a") := by
  refine ⟨?_, ?_, ?_, (labelMapping_bijection ["a", "b", "a"]).1 "a" (by simp)⟩
  · simp [buildWordMapping, buildMappingAux, uniqueWords]
  · simp [buildWordMapping, buildMappingAux, uniqueWords, inverseMapping, lookupJS,
      List.find?]
  · simp [buildWordMapping, buildMappingAux, uniqueWords, inverseMapping, lookupJS,
      List.find?]

end BrainDecode
